import Mathlib

/-!
# Web Recall — verification of the ingestion/versioning, retrieval scoring,
# queue, retry, import and RAG-orchestration core

Shallow embedding of the relevant functions of the `web-recall` browser
extension (source files `background.js`, `offscreen.js`, `text.js`, the
shared vector helpers, the IndexedDB helpers and the memory-manager panel).

Modelling conventions:
* JavaScript numbers used for vector components and scores are modelled
  as real numbers (`ℝ`); `Math.sqrt` is `Real.sqrt` and `Math.exp` is
  `Real.exp`.
* A JavaScript value that may be `null`/`undefined`/non-array is modelled
  with `Option`.
* Strings are modelled as `List Char`; `String.prototype.includes` is
  list-containment, `toLowerCase` maps `Char.toLower`,
  `split(/\W+/)` keeps the maximal word-character runs (the empty pieces
  a JavaScript split can also yield are dropped by the length filters that
  always follow in this code base).
* 32-bit integer wrap-around (`| 0`, `>>> 0`, `<< 5`) is explicit modular
  arithmetic on `ℤ`.
* Timestamps and delays are natural numbers (milliseconds); `Date.now()`
  becomes an explicit `now` parameter.
-/

namespace WebRecall

/-! ## Items and vectors (shared helpers, `part_000`)

An `Item` is one text chunk plus its (optional) embedding vector, as stored
in a version record. -/

structure Item where
  text : List Char
  embedding : Option (List ℝ)

/-- Dot product over the first `min |a| |b|` components, as computed by the
loop in `cosineSimilarity` (`part_000`, lines 13-20). -/
noncomputable def dotMin (a b : List ℝ) : ℝ :=
  ((a.zip b).map fun p => p.1 * p.2).sum

/-- Squared norm of the first vector truncated to `min |a| |b|` components
(the `na` accumulator of `cosineSimilarity`). -/
noncomputable def normSqA (a b : List ℝ) : ℝ :=
  ((a.zip b).map fun p => p.1 * p.1).sum

/-- Squared norm of the second vector truncated to `min |a| |b|` components
(the `nb` accumulator of `cosineSimilarity`). -/
noncomputable def normSqB (a b : List ℝ) : ℝ :=
  ((a.zip b).map fun p => p.2 * p.2).sum

/-- `cosineSimilarity(a, b)` from `part_000` lines 9-23.  `none` stands
for a non-array argument (the `safeArray` guard).  Empty input or a
zero-norm side yields `0`; otherwise the cosine is computed over the first
`min |a| |b|` components. -/
noncomputable def cosineSimilarityL (va vb : List ℝ) : ℝ :=
  if va = [] ∨ vb = [] then 0
  else if normSqA va vb = 0 ∨ normSqB va vb = 0 then 0
  else dotMin va vb / (Real.sqrt (normSqA va vb) * Real.sqrt (normSqB va vb))

noncomputable def cosineSimilarity : Option (List ℝ) → Option (List ℝ) → ℝ
  | some va, some vb => cosineSimilarityL va vb
  | _, _ => 0

/-- `recencyWeight(ts)` from `part_000` lines 25-30, with `Date.now()`
made explicit: `exp(-max(0, now - ts) / 30 days)`.  The non-finite
timestamp guard of the source cannot arise for `ℕ` timestamps. -/
noncomputable def recencyWeight (now ts : ℕ) : ℝ :=
  Real.exp (-(max 0 ((now : ℝ) - (ts : ℝ))) / (30 * 24 * 60 * 60 * 1000))

/-- Component-wise sum of two vectors over shared indices (the inner
accumulation loop of `computeCentroid`; all summed vectors share the
dimension `dim`, so the zip truncation is exact). -/
noncomputable def addVec (a b : List ℝ) : List ℝ :=
  (a.zip b).map fun p => p.1 + p.2

/-- `computeCentroid(items)` from `part_000` lines 32-47: the dimension is
taken from the first item's embedding; items whose embedding is missing or
of a different length are skipped; the result is the component-wise mean,
or `none` when there is nothing to average. -/
noncomputable def computeCentroid (items : List Item) : Option (List ℝ) :=
  match items with
  | [] => none
  | it0 :: _ =>
    let dim := match it0.embedding with
      | some e => e.length
      | none => 0
    if dim = 0 then none
    else
      let valid := items.filterMap fun it =>
        match it.embedding with
        | some e => if e.length = dim then some e else none
        | none => none
      if valid.length = 0 then none
      else some ((valid.foldl addVec (List.replicate dim 0)).map
        fun x => x / (valid.length : ℝ))

/-! ## Text utilities (`text.js`)

`normalizeText` collapses every whitespace run to a single space and trims;
`stringHash` is the 32-bit polynomial rolling hash of the normalized text.
-/

/-- JavaScript regular-expression whitespace (`\\s`) membership, restricted
to the characters this code base can encounter; only `isJsWs ' ' = true`
and decidability matter for the theorems below. -/
def isJsWs (c : Char) : Bool :=
  c = ' ' ∨ c = '\t' ∨ c = '\n' ∨ c = '\r' ∨
  c = '\u000b' ∨ c = '\u000c' ∨ c = '\u00a0' ∨ c = '\u2028' ∨ c = '\u2029'

/-- The state machine behind `String(s).replace(/\\s+/g, ' ')`: the flag
records whether we are inside a whitespace run whose single replacement
space has already been emitted. -/
def collapseAux : Bool → List Char → List Char
  | _, [] => []
  | inRun, c :: cs =>
    if isJsWs c then
      if inRun then collapseAux true cs else ' ' :: collapseAux true cs
    else c :: collapseAux false cs

/-- `String(s).replace(/\\s+/g, ' ')`: every maximal whitespace run becomes
one space (`text.js` line 14). -/
def collapseWs (l : List Char) : List Char :=
  collapseAux false l

/-- `String.prototype.trim()`: drop leading and trailing whitespace. -/
def trimWs (l : List Char) : List Char :=
  List.rdropWhile isJsWs (l.dropWhile isJsWs)

/-- `normalizeText(s)` from `text.js` lines 12-15 (the `!s` guard returns
the empty string, which coincides with normalizing the empty list). -/
def normalizeText (l : List Char) : List Char :=
  trimWs (collapseWs l)

/-- `| 0`: wrap an integer to signed 32-bit (two's complement). -/
def wrap32 (x : ℤ) : ℤ :=
  (x + 2 ^ 31) % 2 ^ 32 - 2 ^ 31

/-- `>>> 0`: reinterpret as unsigned 32-bit. -/
def toUint32 (x : ℤ) : ℤ :=
  x % 2 ^ 32

/-- One iteration of the rolling-hash loop of `stringHash` (`text.js`
lines 26-30): `hash = ((hash << 5) - hash) + chr; hash |= 0`.  The shift
itself wraps to 32 bits before the subtraction, exactly as `<<` does in
JavaScript. -/
def hashStep (h : ℤ) (c : Char) : ℤ :=
  wrap32 (wrap32 (32 * h) - h + c.toNat)

/-- The rolling hash of an (already normalized) character list. -/
def hashRaw (l : List Char) : ℤ :=
  l.foldl hashStep 0

/-- `stringHash(str)` from `text.js` lines 23-32: normalize, fold the
rolling hash, then reinterpret the signed 32-bit result as unsigned. -/
def stringHash (l : List Char) : ℤ :=
  toUint32 (hashRaw (normalizeText l))

/-! ## Stage-2 chunk scoring (`offscreen.js`, `scoreChunksInPages`)

The ranking weights of `offscreen.js` lines 13-17 and the per-item scoring
closure `processItem` of lines 97-160. -/

def W_SIM : ℝ := 0.75
def W_EXACT : ℝ := 0.12
def W_TITLE_EXACT : ℝ := 0.03
def W_TOKEN : ℝ := 0.05
def W_RECENCY : ℝ := 0.05

/-- `hay.includes(needle)`: literal substring containment. -/
def includesL (hay needle : List Char) : Bool :=
  decide (needle <:+: hay)

/-- `s.toLowerCase()`. -/
def toLowerL (l : List Char) : List Char :=
  l.map Char.toLower

/-- JavaScript `\\w` (word character): `[A-Za-z0-9_]`. -/
def isWordChar (c : Char) : Bool :=
  (c.isAlpha && c.toNat < 128) || c.isDigit || c = '_'

/-- `q.split(/\\W+/).filter(t => t.length >= 3)` (`offscreen.js` line 94):
the maximal word-character runs of `q`, of length at least 3.  (A
JavaScript split can also yield empty pieces; the length filter removes
them, so splitting at every non-word character is equivalent.) -/
def queryTokens (q : List Char) : List (List Char) :=
  ((q.splitOnP fun c => !isWordChar c).filter fun t => 3 ≤ t.length)

/-- Maximum cosine similarity of a chunk embedding against the
query-variation embeddings (`processItem` lines 99-103; the `-Infinity`
start value is eliminated by taking the first variation as the base —
`scoreChunksInPages` returns early when the variation list is empty). -/
noncomputable def maxCosine : List (Option (List ℝ)) → Option (List ℝ) → ℝ
  | [], _ => 0
  | ve :: rest, emb =>
    (rest.map fun v => cosineSimilarity v emb).foldl max (cosineSimilarity ve emb)

/-- The `hasExact` flag of `processItem` (lines 109-119): the snippet
check only runs for a nonempty query of length at least 3. -/
def hasExactFlag (q snippetLower : List Char) : Bool :=
  decide (q ≠ []) && decide (3 ≤ q.length) && includesL snippetLower q

/-- The `hasToken` flag of `processItem` (lines 109-126).  In the snippet
it is only checked when the exact query is NOT contained (the
`else if` on line 114); in the title only when the full query is not
contained in the title (the `else if` on line 123). -/
def hasTokenFlag (q : List Char) (qTokens : List (List Char))
    (snippetLower titleLower : List Char) : Bool :=
  (decide (q ≠ []) && decide (3 ≤ q.length) && !includesL snippetLower q &&
    decide (qTokens ≠ []) && qTokens.any fun t => includesL snippetLower t) ||
  (!(decide (q ≠ []) && includesL titleLower q) &&
    decide (qTokens ≠ []) && qTokens.any fun t => includesL titleLower t)

/-- The candidate fields produced by `processItem` that the claims are
about (lines 149-159). -/
structure ChunkScore where
  score : ℝ
  weightedScore : ℝ
  containsExact : Bool

/-- The scoring core of `processItem` (`offscreen.js` lines 97-160) for
one item, given the per-call query data: the additive blend of the five
components into `weightedScore`, with the untouched maximum cosine kept as
`score`. -/
noncomputable def processItem (q : List Char) (qTokens : List (List Char))
    (titleLower : List Char) (itemText : List Char) (emb : Option (List ℝ))
    (ves : List (Option (List ℝ))) (now ts : ℕ) : ChunkScore :=
  let m := maxCosine ves emb
  let rw := recencyWeight now ts
  let snippetLower := toLowerL itemText
  let hasExact := hasExactFlag q snippetLower
  let hasToken := hasTokenFlag q qTokens snippetLower titleLower
  let simComponent := W_SIM * m
  let exactComponent := if hasExact then W_EXACT else 0
  let titleExactComponent :=
    if decide (q ≠ []) && includesL titleLower q then W_TITLE_EXACT else 0
  let tokenComponent := if hasToken then W_TOKEN else 0
  let recencyComponent := W_RECENCY * rw
  { score := m
    weightedScore := simComponent + exactComponent + titleExactComponent +
      tokenComponent + recencyComponent
    containsExact := hasExact }

/-- `scoreChunksInPages` per-item entry point (lines 93-96): the query is
lowercased and trimmed once, the tokens derived from it, the title
lowercased. -/
noncomputable def scoreChunk (originalQuery titleRaw itemText : List Char)
    (emb : Option (List ℝ)) (ves : List (Option (List ℝ))) (now ts : ℕ) :
    ChunkScore :=
  let q := trimWs (toLowerL originalQuery)
  processItem q (queryTokens q) (toLowerL titleRaw) itemText emb ves now ts

/-- Modelled from the claim's words (for comparison with the code): the
weighted score as the sum of five components where `tokenComponent` is
`0.05` IFF any query token of length at least 3 is a literal substring of
the chunk or of the title. -/
noncomputable def claimedWeightedScore (q : List Char)
    (qTokens : List (List Char)) (titleLower : List Char)
    (itemText : List Char) (emb : Option (List ℝ))
    (ves : List (Option (List ℝ))) (now ts : ℕ) : ℝ :=
  W_SIM * maxCosine ves emb +
  (if 3 ≤ q.length ∧ q <:+: toLowerL itemText then W_EXACT else 0) +
  (if q <:+: titleLower then W_TITLE_EXACT else 0) +
  (if ∃ t ∈ qTokens, t <:+: toLowerL itemText ∨ t <:+: titleLower
    then W_TOKEN else 0) +
  W_RECENCY * recencyWeight now ts

/-! ## Capture queue (`background.js`, `enqueueProcess`, lines 22-41) -/

/-- A capture message: the URL plus an opaque payload standing for the
title/timestamp/chunks/text fields that `enqueueProcess` never inspects.
The empty URL models a falsy `message.url`. -/
structure PageMessage where
  url : String
  payload : ℕ
deriving DecidableEq

/-- One queue entry (`{ url, message, delayMs }`). -/
structure QEntry where
  url : String
  message : PageMessage
  delayMs : ℕ
deriving DecidableEq

/-- The queue state: `PROCESS_QUEUE` plus `CURRENT_URL`. -/
structure QState where
  queue : List QEntry
  currentUrl : Option String
deriving DecidableEq

/-- The in-place update loop of `enqueueProcess` (lines 27-34): update the
first entry with the same URL (payload replaced, delay maximized) and
return `some` of the new queue, or `none` when no entry matches. -/
def updateIfQueued : List QEntry → PageMessage → ℕ → Option (List QEntry)
  | [], _, _ => none
  | e :: rest, m, d =>
    if e.url = m.url then
      some ({ e with message := m, delayMs := max e.delayMs d } :: rest)
    else
      (updateIfQueued rest m d).map fun r => e :: r

/-- `enqueueProcess(message, delayMs)` (`background.js` lines 22-41):
falsy URL is ignored; an already-queued URL is updated in place; the URL
currently being processed is dropped; otherwise the entry is appended. -/
def enqueueProcess (st : QState) (m : PageMessage) (d : ℕ) : QState :=
  if m.url = "" then st
  else
    match updateIfQueued st.queue m d with
    | some q2 => { st with queue := q2 }
    | none =>
      if st.currentUrl = some m.url then st
      else { st with queue := st.queue ++ [⟨m.url, m, d⟩] }

/-- Number of queue entries for a URL. -/
def countUrl (q : List QEntry) (u : String) : ℕ :=
  (q.filter fun e => e.url = u).length

/-! ## Versioned documents (`background.js`)

`Version` and `Document` model the records persisted in the `pages` store.
The typed model always carries the `versions` array and a numeric
`latestVersionIndex`, so the legacy-initialisation branches of
`upsertVersion` (lines 908-919) and `processAndStore` (lines 1161-1171),
which only fire for malformed records missing those fields, are not
reachable here; `latestVersionIndex : ℕ` renders the lower bound
`0 ≤ latestVersionIndex` by type. -/

structure Version where
  timestamp : ℕ
  hash : ℤ
  items : List Item
  centroid : Option (List ℝ)
  summary : List Char

structure Document where
  canonicalUrl : String
  url : String
  title : String
  timestamp : ℕ
  latestVersionIndex : ℕ
  versions : List Version
  items : List Item
  centroid : Option (List ℝ)
  summary : List Char

/-- The effective version cap: `Math.max(1, maxVersions || 3)`
(`background.js` lines 935 and 1186). -/
def effectiveMax (maxVersions : ℕ) : ℕ :=
  max 1 (if maxVersions = 0 then 3 else maxVersions)

/-- The similarity decision of `upsertVersion` (lines 925-929): both
centroids must be present (the latest falling back to a freshly computed
one), and the cosine of the new against the latest centroid must reach the
threshold. -/
noncomputable def similarUpsert (thr : ℝ) (latest version : Version) : Prop :=
  match latest.centroid.or (computeCentroid latest.items), version.centroid with
  | some lc, some vc => thr ≤ cosineSimilarity (some vc) (some lc)
  | _, _ => False

noncomputable instance (thr : ℝ) (latest version : Version) :
    Decidable (similarUpsert thr latest version) := by
  unfold similarUpsert
  exact match latest.centroid.or (computeCentroid latest.items), version.centroid with
  | some lc, some vc => Real.decidableLE thr _
  | some lc, none => isFalse not_false
  | none, _ => isFalse not_false

/-- The similarity decision of `processAndStore` (lines 1173-1178): both
centroids are defaulted to `[]` and the comparison runs only when both are
nonempty. -/
noncomputable def similarPAS (thr : ℝ) (latest newVersion : Version) : Prop :=
  let lc := ( latest.centroid.or (computeCentroid latest.items)).getD []
  let nc := newVersion.centroid.getD []
  lc ≠ [] ∧ nc ≠ [] ∧ thr ≤ cosineSimilarity (some nc) (some lc)

noncomputable instance (thr : ℝ) (l v : Version) :
    Decidable (similarPAS thr l v) := by
  unfold similarPAS
  exact instDecidableAnd

/-- Append-and-evict (`upsertVersion` lines 933-940, `processAndStore`
lines 1184-1192): push the new version, point the latest index at it, and
if the list now exceeds the cap drop from the front (oldest first) and
re-point the index at the new end. -/
def appendEvict (versions : List Version) (v : Version) (maxN : ℕ) :
    List Version × ℕ :=
  let pushed := versions ++ [v]
  if maxN < pushed.length then
    let dropped := pushed.drop (pushed.length - maxN)
    (dropped, dropped.length - 1)
  else (pushed, pushed.length - 1)

/-- The "Sync top-level fields" block of `upsertVersion` (lines 943-951):
re-read `versions[latestVersionIndex]` and denormalize its fields to the
top level (the or-empty-string default on the summary coincides with
`cur.summary` itself).  The `getD` fallback is unreachable: every branch leaves the
index in range. -/
def syncTopLevel (canUrl url title : String) (step : List Version × ℕ)
    (fallback : Version) : Document :=
  let cur := (step.1)[step.2]?.getD fallback
  { canonicalUrl := canUrl, url := url, title := title
    timestamp := cur.timestamp, latestVersionIndex := step.2
    versions := step.1, items := cur.items, centroid := cur.centroid
    summary := cur.summary }

/-- `upsertVersion(canUrl, url, title, version, maxVersions,
similarityThreshold)` (`background.js` lines 884-958) restricted to the
record it writes: `doc?` is what `getByCanonicalUrl` returned.  When the
index is out of range the source would read `undefined` and fall into the
append branch with `similar = false` (optional chaining on lines 926-927),
which the `none` match arm mirrors. -/
noncomputable def upsertVersionDoc (canUrl url title : String)
    (version : Version) (maxVersions : ℕ) (thr : ℝ) (doc? : Option Document) :
    Document :=
  match doc? with
  | none =>
    { canonicalUrl := canUrl, url := url, title := title
      timestamp := version.timestamp, latestVersionIndex := 0
      versions := [version], items := version.items
      centroid := version.centroid, summary := version.summary }
  | some doc =>
    syncTopLevel canUrl url title
      (match doc.versions[doc.latestVersionIndex]? with
      | some latest =>
        if latest.hash = version.hash then
          (doc.versions.set doc.latestVersionIndex
            { latest with timestamp := max latest.timestamp version.timestamp },
           doc.latestVersionIndex)
        else if similarUpsert thr latest version then
          (doc.versions.set doc.latestVersionIndex version,
           doc.latestVersionIndex)
        else appendEvict doc.versions version (effectiveMax maxVersions)
      | none => appendEvict doc.versions version (effectiveMax maxVersions))
      version

/-- The version-bearing fast-path pair of `processAndStore` line 1069:
`doc.versions[doc.latestVersionIndex] || doc.versions[len - 1]`, together
with the index of the version the bump would mutate. -/
def fastLatest (d : Document) : Option (ℕ × Version) :=
  match d.versions[d.latestVersionIndex]? with
  | some v => some (d.latestVersionIndex, v)
  | none =>
    match d.versions[d.versions.length - 1]? with
    | some v => some (d.versions.length - 1, v)
    | none => none

/-- `title || doc.title` (line 1073): keep the old field when the new one
is falsy (empty). -/
def jsOrS (a b : String) : String :=
  if a = "" then b else a

/-- The storage effect of `processAndStore` (`background.js` lines
1040-1216) on the document record, with the embedding-and-summary
computation abstracted as the thunk `compute` (it is only forced on the
paths that re-embed).  Returns `none` when the source would throw — the
merge path reads `doc.versions[doc.latestVersionIndex].centroid` without a
guard (lines 1172-1173), which throws for an out-of-range index and lands
in the retry handler.  The fast path (lines 1067-1090) bumps only the
timestamps (and refreshes url/title) and never forces `compute`. -/
noncomputable def processAndStoreCore (canUrl url title : String)
    (timestamp : ℕ) (contentHash : ℤ)
    (compute : Unit → List Item × List Char) (maxVersions : ℕ) (thr : ℝ)
    (doc? : Option Document) : Option Document :=
  match doc? with
  | some d =>
    match fastLatest d with
    | some (i, latest) =>
      if latest.hash = contentHash then
        some { d with
          versions := d.versions.set i { latest with timestamp := timestamp }
          timestamp := timestamp
          title := jsOrS title d.title
          url := jsOrS url d.url }
      else
        let c := compute ()
        let newVersion : Version :=
          { timestamp := timestamp, hash := contentHash, items := c.1
            centroid := computeCentroid c.1, summary := c.2 }
        match d.versions[d.latestVersionIndex]? with
        | none => none
        | some latest2 =>
          let step : List Version × ℕ :=
            if similarPAS thr latest2 newVersion then
              (d.versions.set d.latestVersionIndex newVersion,
               d.latestVersionIndex)
            else appendEvict d.versions newVersion (effectiveMax maxVersions)
          some { d with
            canonicalUrl := canUrl, url := url, title := title
            timestamp := timestamp, latestVersionIndex := step.2
            versions := step.1, items := newVersion.items
            centroid := newVersion.centroid, summary := newVersion.summary }
    | none =>
      let c := compute ()
      let newVersion : Version :=
        { timestamp := timestamp, hash := contentHash, items := c.1
          centroid := computeCentroid c.1, summary := c.2 }
      match d.versions[d.latestVersionIndex]? with
      | none => none
      | some latest2 =>
        let step : List Version × ℕ :=
          if similarPAS thr latest2 newVersion then
            (d.versions.set d.latestVersionIndex newVersion,
             d.latestVersionIndex)
          else appendEvict d.versions newVersion (effectiveMax maxVersions)
        some { d with
          canonicalUrl := canUrl, url := url, title := title
          timestamp := timestamp, latestVersionIndex := step.2
          versions := step.1, items := newVersion.items
          centroid := newVersion.centroid, summary := newVersion.summary }
  | none =>
    let c := compute ()
    let newVersion : Version :=
      { timestamp := timestamp, hash := contentHash, items := c.1
        centroid := computeCentroid c.1, summary := c.2 }
    some
      { canonicalUrl := canUrl, url := url, title := title
        timestamp := timestamp, latestVersionIndex := 0
        versions := [newVersion], items := newVersion.items
        centroid := newVersion.centroid, summary := newVersion.summary }

/-- The document invariant of the spec (section 3): the latest index is in
range, the version list respects the cap, and the denormalized top-level
`items`/`centroid`/`summary` equal those of `versions[latestVersionIndex]`.
-/
def DocInv (maxN : ℕ) (d : Document) : Prop :=
  d.latestVersionIndex < d.versions.length ∧
  d.versions.length ≤ maxN ∧
  ∀ v, d.versions[d.latestVersionIndex]? = some v →
    d.items = v.items ∧ d.centroid = v.centroid ∧ d.summary = v.summary

/-! ## Capture failure handling (`background.js` lines 1217-1240)

The `catch` block of `processAndStore`: increment the attempt counter of
the per-URL processing entry, retry with exponential backoff while the
incremented count is at most 3, and beyond that remove the processing
entry and discard the persisted pending payload, leaving the persisted
error log rows (`LOGGER.error` writes them to `chrome.storage`,
`logger.js` lines 13-26 and 42-46) as the durable record. -/

inductive ProcStatus where
  | processing
  | retrying
  | error
deriving DecidableEq

structure ProcEntry where
  url : String
  status : ProcStatus
  attempts : ℕ
deriving DecidableEq

/-- The storage-backed state the failure handler touches: the
`processingPages` list, the set of persisted pending capture payloads
(keyed by URL), the persisted log rows, and the retry timers scheduled via
`setTimeout` (backoff in milliseconds plus the re-enqueued message). -/
structure FailState where
  processing : List ProcEntry
  pending : List String
  logs : List String
  scheduled : List (ℕ × PageMessage)
deriving DecidableEq

/-- The `catch` handler of `processAndStore` (lines 1217-1240) as a state
transition for the failing message. -/
def onProcessFailure (st : FailState) (m : PageMessage) : FailState :=
  let url := m.url
  let prior := match st.processing.find? fun p => p.url = url with
    | some e => e.attempts
    | none => 0
  let attempts := prior + 1
  let st1 : FailState :=
    { st with
      logs := st.logs ++ ["processAndStore failed"]
      processing := st.processing.map fun p =>
        if p.url = url then { p with status := .error, attempts := attempts }
        else p }
  if attempts ≤ 3 then
    { st1 with
      logs := st1.logs ++ ["scheduling retry"]
      scheduled := st1.scheduled ++ [(1000 * 2 ^ (attempts - 1), m)] }
  else
    { st1 with
      logs := st1.logs ++ ["giving up after retries"]
      processing := st1.processing.filter fun p => p.url ≠ url
      pending := st1.pending.filter fun u => u ≠ url }

/-! ## Tool-calling loop of `askQuestion` (`background.js` lines 1811-1853) -/

/-- `Math.max(0, Math.min(maxToolSteps || 2, 2))` (line 1823).  A falsy
(`0`/unset) `maxToolSteps` falls back to the default 2 BEFORE the `min`. -/
def stepCap (maxToolSteps : ℕ) : ℕ :=
  max 0 (min (if maxToolSteps = 0 then 2 else maxToolSteps) 2)

/-- The `while (steps < stepCap)` loop of lines 1824-1847, counting the
rounds that execute.  `ok n` / `hasTools n` abstract whether the n-th
follow-up provider response is HTTP-ok and carries further `tool_calls`;
the loop continues only when both hold. -/
def toolLoopCount (steps cap : ℕ) (ok hasTools : ℕ → Bool) : ℕ :=
  if steps < cap then
    let s := steps + 1
    if ok s && hasTools s then toolLoopCount s cap ok hasTools else s
  else steps
termination_by cap - steps

/-! ## `askQuestion` retrieval front (`background.js` lines 1655-1733)

Only the structure the claims need: the per-sub-query retrieval, the
`(url, snippet)` dedup map keeping the higher score, and the early return
on an empty hit set.  Everything after the `hitsArray.length === 0` check
is abstracted behind oracle functions for the extract and compose passes.
-/

structure Hit where
  url : String
  snippet : String
  title : String
  score : ℝ
  weightedScore : ℝ
  crossScore : Option ℝ

/-- `hit.crossScore || hit.weightedScore || hit.score` (line 1696) with
JavaScript falsiness: `0` and `undefined` both fall through. -/
noncomputable def hitScore (h : Hit) : ℝ :=
  match h.crossScore with
  | some c => if c = 0 then (if h.weightedScore = 0 then h.score else h.weightedScore) else c
  | none => if h.weightedScore = 0 then h.score else h.weightedScore

/-- Insert one hit into the dedup map (lines 1689-1700): key by
URL + snippet, keep the entry with the strictly higher score. -/
noncomputable def insertHit (m : List (String × Hit)) (hit : Hit) :
    List (String × Hit) :=
  let key := hit.url ++ "::" ++ hit.snippet
  match m.find? fun e => e.1 = key with
  | none => m ++ [(key, hit)]
  | some _ =>
    m.map fun e =>
      if e.1 = key then
        if hitScore e.2 < hitScore hit then (key, hit) else e
      else e

/-- The hit map accumulated over all sub-queries (lines 1677-1704);
`search` abstracts `searchMemory(sub, 5)`. -/
noncomputable def buildHitMap (subQueries : List String)
    (search : String → List Hit) : List (String × Hit) :=
  subQueries.foldl (fun m sub => (search sub).foldl insertHit m) []

/-- The shape of an `askQuestion` result: either a bare string (the early
returns) or a synthesized answer assembled by the extract/compose passes.
-/
inductive AskResult where
  | text (s : String)
  | answered (extractOutput composeOutput : String)

/-- The orchestration skeleton of `askQuestion` after decomposition
(lines 1677-1733 and onwards): retrieval and dedup, then the empty-check
early return, otherwise the extract and compose oracles run on the
deduplicated hits. -/
noncomputable def askQuestionCore (subQueries : List String)
    (search : String → List Hit)
    (extract : List Hit → String) (compose : String → String) : AskResult :=
  let hitsArray := (buildHitMap subQueries search).map Prod.snd
  if hitsArray.length = 0 then .text "No relevant context found."
  else
    let bullets := extract hitsArray
    .answered bullets (compose bullets)

/-! ## Import (`background.js` `IMPORT_PAGES` handler, lines 2382-2484,
and the file-shape tolerance of the memory-manager panel, `part_003`
lines 124-150) -/

structure EmbMeta where
  model : Option String
  dim : ℕ
deriving DecidableEq

/-- `ensureEmbeddingMeta(model, dim)` (`background.js` lines 381-390):
persist once, only for a positive dimension, never overwrite. -/
def ensureEmbeddingMetaOp (cur : Option EmbMeta) (model : Option String)
    (dim : ℕ) : Option EmbMeta :=
  if dim = 0 then cur
  else match cur with
    | some _ => cur
    | none => some ⟨model, dim⟩

/-- The running state of the import loop: the persisted embedding
metadata, the skipped-version counter, the per-version progress counter
and the versions actually handed to `upsertVersion`. -/
structure ImportState where
  meta : Option EmbMeta
  skipped : ℕ
  done : ℕ
  written : List Version

/-- One iteration of the per-version import loop (lines 2433-2471) on an
already-prepared (`ensureVersionData`) version.  `currentDim` is the
dimension read ONCE before the loop (line 2396-2397) and never refreshed;
`fileModel` is `incomingMeta?.model || <settings embed model>` used when
inferring metadata. -/
noncomputable def importStep (currentDim : Option ℕ) (fileModel : Option String)
    (st : ImportState) (ready : Version) : ImportState :=
  match currentDim with
  | some dim =>
    let filtered := ready.items.filter fun it =>
      match it.embedding with
      | none => true
      | some e => e.length = dim
    if filtered.length = 0 ∧ ready.items.length ≠ 0 then
      { st with skipped := st.skipped + 1 }
    else
      let v2 :=
        { ready with items := filtered, centroid := computeCentroid filtered }
      { st with written := st.written ++ [v2], done := st.done + 1 }
  | none =>
    let st2 :=
      if ready.items.length ≠ 0 then
        match ready.items.find? fun it =>
            match it.embedding with
            | some e => 0 < e.length
            | none => false with
        | some first =>
          let m2 := ensureEmbeddingMetaOp st.meta fileModel
            ((first.embedding.getD []).length)
          { st with meta := m2 }
        | none => st
      else st
    { st2 with written := st2.written ++ [ready], done := st2.done + 1 }

/-- The `currentDim` read of lines 2396-2397: `curMeta2?.dim || null`
(a zero dimension is falsy and behaves like no metadata). -/
def currentDimOf (meta : Option EmbMeta) : Option ℕ :=
  match meta with
  | some m => if m.dim = 0 then none else some m.dim
  | none => none

/-- The `IMPORT_PAGES` handler (lines 2382-2484) restricted to one
document's prepared version list: persist incoming file metadata when the
store has none (lines 2389-2394), fix `currentDim` once, then fold the
per-version step. -/
noncomputable def importPages (storeMeta incomingMeta : Option EmbMeta)
    (fileModel : Option String) (readyVersions : List Version) : ImportState :=
  let metaAfter :=
    match storeMeta, incomingMeta with
    | none, some im => ensureEmbeddingMetaOp none im.model im.dim
    | m, _ => m
  let currentDim := currentDimOf metaAfter
  readyVersions.foldl (importStep currentDim fileModel)
    { meta := metaAfter, skipped := 0, done := 0, written := [] }

/-- The parsed shape of an import file (`part_003` lines 126-144): a bare
legacy array of pages, a wrapper object (whose `pages` may be missing and
whose metadata is optional), or neither. -/
inductive ImportJson (α : Type) where
  | bareArray (pages : List α)
  | wrapper (schemaVersion : Option ℕ) (pages : Option (List α))
      (meta : Option EmbMeta)
  | invalid

/-- The reader logic of `part_003` lines 126-144: a bare array is
tolerated as a legacy export (schema version 0, no metadata); a wrapper
object must carry `pages[]`; anything else is rejected. -/
def parseImportFile {α : Type} :
    ImportJson α → Except String (ℕ × Option EmbMeta × List α)
  | .bareArray pages => .ok (0, none, pages)
  | .wrapper sv pages? meta =>
    match pages? with
    | none => .error "Invalid file: missing pages[]"
    | some pages => .ok (sv.getD 0, meta, pages)
  | .invalid => .error "Invalid JSON structure"

/-! ## Queue lemmas and claim C4 -/

theorem updateIfQueued_eq_none_iff (q : List QEntry) (m : PageMessage)
    (d : ℕ) : updateIfQueued q m d = none ↔ ∀ e ∈ q, e.url ≠ m.url := by
  induction q with
  | nil => simp [updateIfQueued]
  | cons e rest ih =>
    by_cases h : e.url = m.url
    · simp [updateIfQueued, h]
    · simp only [updateIfQueued, h, if_neg, List.mem_cons]
      constructor
      · intro hmap x hx
        rcases hx with rfl | hx
        · exact h
        · have : updateIfQueued rest m d = none := by
            cases hcase : updateIfQueued rest m d with
            | none => rfl
            | some r => simp [hcase] at hmap
          exact (ih.mp this) x hx
      · intro hall
        have : updateIfQueued rest m d = none :=
          ih.mpr fun x hx => hall x (Or.inr hx)
        simp [this]

theorem updateIfQueued_append_of_none (q q2 : List QEntry) (m : PageMessage)
    (d : ℕ) (h : updateIfQueued q m d = none) :
    updateIfQueued (q ++ q2) m d = (updateIfQueued q2 m d).map (q ++ ·) := by
  induction q with
  | nil => simp [Option.map_id]
  | cons e rest ih =>
    have hne : e.url ≠ m.url := by
      have := (updateIfQueued_eq_none_iff (e :: rest) m d).mp h
      exact this e (List.mem_cons_self e rest)
    have hrest : updateIfQueued rest m d = none := by
      rw [updateIfQueued_eq_none_iff] at h ⊢
      exact fun x hx => h x (List.mem_cons_of_mem _ hx)
    simp only [List.cons_append, updateIfQueued, hne, if_false, ite_false,
      List.append_eq]
    rw [ih hrest]
    cases updateIfQueued q2 m d <;> simp

theorem updateIfQueued_map_url (q : List QEntry) (m : PageMessage) (d : ℕ)
    (q2 : List QEntry) (h : updateIfQueued q m d = some q2) :
    q2.map QEntry.url = q.map QEntry.url := by
  induction q generalizing q2 with
  | nil => simp [updateIfQueued] at h
  | cons e rest ih =>
    by_cases he : e.url = m.url
    · simp only [updateIfQueued, he, if_pos] at h
      cases h
      simp [he]
    · simp only [updateIfQueued, he, if_neg] at h
      cases hcase : updateIfQueued rest m d with
      | none => simp [hcase] at h
      | some r =>
        simp only [hcase, Option.map_some] at h
        cases h
        simp [ih r hcase]

theorem countUrl_zero_iff (q : List QEntry) (u : String) :
    countUrl q u = 0 ↔ ∀ e ∈ q, e.url ≠ u := by
  simp [countUrl, List.length_eq_zero, List.filter_eq_nil_iff]

/-- C4: enqueuing the same URL twice before processing starts leaves
exactly one queue entry for it, carrying the second payload and the
maximum of the two delays; an enqueue never duplicates a queued URL; and
an enqueue for the URL currently being processed is dropped. -/
theorem enqueue_dedup_max_delay :
    (∀ (st : QState) (m1 m2 : PageMessage) (d1 d2 : ℕ),
      m2.url = m1.url → m1.url ≠ "" → st.currentUrl ≠ some m1.url →
      countUrl st.queue m1.url = 0 →
      countUrl (enqueueProcess (enqueueProcess st m1 d1) m2 d2).queue m1.url
          = 1 ∧
      ⟨m1.url, m2, max d1 d2⟩ ∈
        (enqueueProcess (enqueueProcess st m1 d1) m2 d2).queue) ∧
    (∀ (st : QState) (m : PageMessage) (d : ℕ),
      (st.queue.map QEntry.url).Nodup →
      ((enqueueProcess st m d).queue.map QEntry.url).Nodup) ∧
    (∀ (st : QState) (m : PageMessage) (d : ℕ),
      st.currentUrl = some m.url → countUrl st.queue m.url = 0 →
      enqueueProcess st m d = st) := by
  refine ⟨?_, ?_, ?_⟩
  · intro st m1 m2 d1 d2 hurl hne hcur hcount
    have hnone : updateIfQueued st.queue m1 d1 = none :=
      (updateIfQueued_eq_none_iff _ _ _).mpr
        ((countUrl_zero_iff _ _).mp hcount)
    have hstep1 : enqueueProcess st m1 d1 =
        { st with queue := st.queue ++ [⟨m1.url, m1, d1⟩] } := by
      simp [enqueueProcess, hne, hnone, hcur]
    have hnone2 : updateIfQueued st.queue m2 d2 = none := by
      rw [updateIfQueued_eq_none_iff]
      intro e he
      rw [hurl]
      exact (countUrl_zero_iff _ _).mp hcount e he
    have hsingle : updateIfQueued [(⟨m1.url, m1, d1⟩ : QEntry)] m2 d2 =
        some [⟨m1.url, m2, max d1 d2⟩] := by
      simp [updateIfQueued, hurl]
    have hupd : updateIfQueued (st.queue ++ [⟨m1.url, m1, d1⟩]) m2 d2 =
        some (st.queue ++ [⟨m1.url, m2, max d1 d2⟩]) := by
      rw [updateIfQueued_append_of_none _ _ _ _ hnone2, hsingle]
      rfl
    have hne2 : m2.url ≠ "" := by rw [hurl]; exact hne
    have hstep2 : enqueueProcess (enqueueProcess st m1 d1) m2 d2 =
        { st with queue := st.queue ++ [⟨m1.url, m2, max d1 d2⟩] } := by
      rw [hstep1]
      simp [enqueueProcess, hne2, hupd]
    rw [hstep2]
    constructor
    · have : countUrl (st.queue ++ [⟨m1.url, m2, max d1 d2⟩]) m1.url =
          countUrl st.queue m1.url +
          countUrl [(⟨m1.url, m2, max d1 d2⟩ : QEntry)] m1.url := by
        simp [countUrl]
      rw [this, hcount]
      simp [countUrl]
    · simp
  · intro st m d hnodup
    unfold enqueueProcess
    by_cases hu : m.url = ""
    · simpa [hu]
    · simp only [hu, if_neg, if_false]
      cases hcase : updateIfQueued st.queue m d with
      | some q2 =>
        simpa [updateIfQueued_map_url st.queue m d q2 hcase] using hnodup
      | none =>
        by_cases hc : st.currentUrl = some m.url
        · simpa [hc]
        · have hnotin : ∀ e ∈ st.queue, e.url ≠ m.url :=
            (updateIfQueued_eq_none_iff _ _ _).mp hcase
          simp only [hc, if_neg, if_false]
          rw [List.map_append]
          simp only [List.map_cons, List.map_nil]
          rw [List.nodup_append]
          refine ⟨hnodup, List.nodup_singleton _, ?_⟩
          intro x hx
          simp only [List.mem_map] at hx
          obtain ⟨e, he, rfl⟩ := hx
          simp only [List.mem_singleton]
          exact fun hcontra => (hnotin e he) hcontra
  · intro st m d hcur hcount
    have hnone : updateIfQueued st.queue m d = none :=
      (updateIfQueued_eq_none_iff _ _ _).mpr
        ((countUrl_zero_iff _ _).mp hcount)
    by_cases hu : m.url = ""
    · simp [enqueueProcess, hu]
    · simp [enqueueProcess, hu, hnone, hcur]

/-- C4 witness: two concrete enqueues for the same URL on the empty queue:
one entry remains, with the second payload and the larger delay. -/
theorem enqueue_dedup_max_delay_witness :
    countUrl (enqueueProcess (enqueueProcess ⟨[], none⟩ ⟨"u", 1⟩ 5)
        ⟨"u", 2⟩ 3).queue "u" = 1 ∧
    (⟨"u", ⟨"u", 2⟩, max 5 3⟩ : QEntry) ∈
      (enqueueProcess (enqueueProcess ⟨[], none⟩ ⟨"u", 1⟩ 5)
        ⟨"u", 2⟩ 3).queue :=
  enqueue_dedup_max_delay.1 ⟨[], none⟩ ⟨"u", 1⟩ ⟨"u", 2⟩ 5 3 rfl
    (by decide) (by decide) (by decide)

/-! ## Tool-loop bound and claim C8 -/

theorem toolLoopCount_le_cap :
    ∀ (fuel steps cap : ℕ) (ok hasTools : ℕ → Bool),
      cap - steps ≤ fuel → steps ≤ cap →
      toolLoopCount steps cap ok hasTools ≤ cap := by
  intro fuel
  induction fuel with
  | zero =>
    intro steps cap ok ht hf hle
    have heq : steps = cap := Nat.le_antisymm hle (by omega)
    rw [toolLoopCount]
    simp [heq]
  | succ n ih =>
    intro steps cap ok ht hf hle
    rw [toolLoopCount]
    by_cases hlt : steps < cap
    · by_cases hcont : (ok (steps + 1) && ht (steps + 1)) = true
      · simp only [hlt, if_true, if_pos, hcont]
        exact ih (steps + 1) cap ok ht (by omega) (by omega)
      · rw [Bool.not_eq_true] at hcont
        simp only [hlt, if_true, if_pos, hcont, Bool.false_eq_true, if_false,
          ite_false]
        omega
    · simp only [hlt, if_false, ite_false]
      exact hle

/-- C8 (amended): the tool loop of the extract pass runs at most 2 rounds
for every `maxToolSteps` value and every provider behaviour, so the
orchestration terminates; the cap equals `min maxToolSteps 2` when
`maxToolSteps ≥ 1`, and the falsy value 0 falls back to the default cap 2.
-/
theorem toolLoop_at_most_two_rounds :
    (∀ (maxToolSteps : ℕ) (ok hasTools : ℕ → Bool),
      toolLoopCount 0 (stepCap maxToolSteps) ok hasTools ≤ 2) ∧
    (∀ maxToolSteps, 1 ≤ maxToolSteps →
      stepCap maxToolSteps = min maxToolSteps 2) ∧
    stepCap 0 = 2 := by
  refine ⟨?_, ?_, by decide⟩
  · intro m ok ht
    have h1 : toolLoopCount 0 (stepCap m) ok ht ≤ stepCap m :=
      toolLoopCount_le_cap (stepCap m) 0 (stepCap m) ok ht (by omega)
        (Nat.zero_le _)
    have h2 : stepCap m ≤ 2 := by
      unfold stepCap
      split <;> omega
    omega
  · intro m hm
    unfold stepCap
    have hnz : ¬(m = 0) := by omega
    rw [if_neg hnz]
    omega

/-- C8 witness: with the provider always answering ok and always
requesting more tools, and `maxToolSteps = 5`, the loop still executes at
most 2 rounds. -/
theorem toolLoop_at_most_two_rounds_witness :
    toolLoopCount 0 (stepCap 5) (fun _ => true) (fun _ => true) ≤ 2 ∧
    (1 ≤ 5 ∧ stepCap 5 = min 5 2) :=
  ⟨toolLoop_at_most_two_rounds.1 5 (fun _ => true) (fun _ => true),
   by decide, toolLoop_at_most_two_rounds.2.1 5 (by decide)⟩

/-- C8 counterexample: the claim reads the cap as `min(maxToolSteps, 2)`,
but the source computes `Math.max(0, Math.min(maxToolSteps || 2, 2))`:
for the settable value `maxToolSteps = 0` (the settings panel stores
`parseInt(value) || 0`), the code caps at 2 and a tool-hungry provider
gets 2 rounds, not `min 0 2 = 0`. -/
theorem toolLoop_cap_counterexample :
    toolLoopCount 0 (stepCap 0) (fun _ => true) (fun _ => true) = 2 ∧
    ¬(toolLoopCount 0 (stepCap 0) (fun _ => true) (fun _ => true) ≤
      min 0 2) := by
  have hcap : stepCap 0 = 2 := by decide
  have h1 : toolLoopCount 0 2 (fun _ => true) (fun _ => true) = 2 := by
    rw [toolLoopCount]
    norm_num
    rw [toolLoopCount]
    norm_num
    rw [toolLoopCount]
    norm_num
  rw [hcap, h1]
  omega

/-! ## Claim C9: zero retrieved hits short-circuits `askQuestion` -/

theorem buildHitMap_empty (subQueries : List String)
    (search : String → List Hit)
    (h : ∀ sq ∈ subQueries, search sq = []) :
    buildHitMap subQueries search = [] := by
  unfold buildHitMap
  induction subQueries with
  | nil => rfl
  | cons sq rest ih =>
    rw [List.foldl_cons, h sq (List.mem_cons_self sq rest)]
    exact ih fun x hx => h x (List.mem_cons_of_mem _ hx)

/-- C9: when retrieval over every sub-query yields no hits, `askQuestion`
returns the literal string "No relevant context found." — uniformly in the
extract and compose oracles, i.e. without invoking those stages. -/
theorem askQuestion_no_context (subQueries : List String)
    (search : String → List Hit)
    (extract : List Hit → String) (compose : String → String)
    (h : ∀ sq ∈ subQueries, search sq = []) :
    askQuestionCore subQueries search extract compose =
      .text "No relevant context found." := by
  unfold askQuestionCore
  rw [buildHitMap_empty subQueries search h]
  rfl

/-- C9 witness: a concrete two-sub-query run whose searches return
nothing produces exactly the literal early return, for an arbitrary
concrete pair of extract/compose oracles. -/
theorem askQuestion_no_context_witness :
    askQuestionCore ["a", "b"] (fun _ => []) (fun _ => "bullets")
      (fun s => s) = .text "No relevant context found." :=
  askQuestion_no_context ["a", "b"] (fun _ => []) (fun _ => "bullets")
    (fun s => s) (fun _ _ => rfl)


/-! ## Cosine similarity properties and claim C6 -/

theorem zip_take_min :
    ∀ (a b : List ℝ),
      a.zip b = (a.take (min a.length b.length)).zip
        (b.take (min a.length b.length)) := by
  intro a
  induction a with
  | nil => intro b; simp
  | cons x xs ih =>
    intro b
    cases b with
    | nil => simp
    | cons y ys =>
      simp only [List.zip_cons_cons, List.length_cons]
      have hmin : min (xs.length + 1) (ys.length + 1) =
          min xs.length ys.length + 1 := by omega
      rw [hmin]
      simp only [List.take_succ_cons, List.zip_cons_cons]
      rw [← ih ys]

theorem dotMin_comm (a b : List ℝ) : dotMin a b = dotMin b a := by
  unfold dotMin
  rw [← List.zip_swap b a, List.map_map]
  congr 1
  apply List.map_congr_left
  intro p _
  simp [mul_comm]

theorem normSq_swap (a b : List ℝ) : normSqA a b = normSqB b a := by
  unfold normSqA normSqB
  rw [← List.zip_swap b a, List.map_map]
  congr 1

theorem zip_self_eq (v : List ℝ) : v.zip v = v.map fun x => (x, x) := by
  induction v with
  | nil => rfl
  | cons x xs ih => simp [List.zip_cons_cons, ih]

theorem dotMin_self (v : List ℝ) : dotMin v v = normSqA v v := by
  unfold dotMin normSqA
  rw [zip_self_eq, List.map_map, List.map_map]
  exact congrArg List.sum (List.map_congr_left fun x _ => rfl)

theorem normSqB_self (v : List ℝ) : normSqB v v = normSqA v v := by
  unfold normSqB normSqA
  rw [zip_self_eq, List.map_map, List.map_map]
  exact congrArg List.sum (List.map_congr_left fun x _ => rfl)

theorem normSqA_nonneg (a b : List ℝ) : 0 ≤ normSqA a b := by
  unfold normSqA
  apply List.sum_nonneg
  intro x hx
  simp only [List.mem_map] at hx
  obtain ⟨p, _, rfl⟩ := hx
  exact mul_self_nonneg _

theorem cosineSimilarityL_comm (a b : List ℝ) :
    cosineSimilarityL a b = cosineSimilarityL b a := by
  unfold cosineSimilarityL
  rw [dotMin_comm, normSq_swap a b, ← normSq_swap b a]
  by_cases h1 : a = [] ∨ b = []
  · have h1s : b = [] ∨ a = [] := h1.symm
    rw [if_pos h1, if_pos h1s]
  · have h1s : ¬(b = [] ∨ a = []) := fun h => h1 h.symm
    rw [if_neg h1, if_neg h1s]
    by_cases h2 : normSqB b a = 0 ∨ normSqA b a = 0
    · have h2s : normSqA b a = 0 ∨ normSqB b a = 0 := h2.symm
      rw [if_pos h2, if_pos h2s]
    · have h2s : ¬(normSqA b a = 0 ∨ normSqB b a = 0) := fun h => h2 h.symm
      rw [if_neg h2, if_neg h2s]
      rw [mul_comm]

theorem cosineSimilarityL_self (v : List ℝ) (hv : v ≠ [])
    (h : normSqA v v ≠ 0) : cosineSimilarityL v v = 1 := by
  unfold cosineSimilarityL
  rw [if_neg (by tauto), if_neg (by rw [normSqB_self]; tauto)]
  rw [dotMin_self, normSqB_self]
  rw [Real.mul_self_sqrt (normSqA_nonneg v v)]
  exact div_self h

/-- C6: `cosineSimilarity` is symmetric; it returns 0 for a non-array
(`none`) argument, an empty vector, or a zero-norm side; it is computed
over the first `min |a| |b|` components (truncating both arguments to that
length does not change the value); and for every vector of non-zero norm
the self-similarity is exactly 1 (hence within 1e-9 of 1).  Totality
("never throws") is the fact that it is a function defined on all pairs of
`Option (List ℝ)`. -/
theorem cosineSimilarity_props :
    (∀ a b, cosineSimilarity a b = cosineSimilarity b a) ∧
    (∀ b, cosineSimilarity none b = 0) ∧
    (∀ a, cosineSimilarity a none = 0) ∧
    (∀ b, cosineSimilarity (some []) b = 0) ∧
    (∀ a b, normSqA a b = 0 → cosineSimilarity (some a) (some b) = 0) ∧
    (∀ a b, normSqB a b = 0 → cosineSimilarity (some a) (some b) = 0) ∧
    (∀ a b, cosineSimilarity (some a) (some b) =
      cosineSimilarity (some (a.take (min a.length b.length)))
        (some (b.take (min a.length b.length)))) ∧
    (∀ v : List ℝ, v ≠ [] → normSqA v v ≠ 0 →
      cosineSimilarity (some v) (some v) = 1 ∧
      |cosineSimilarity (some v) (some v) - 1| ≤ 1e-9) := by
  refine ⟨?_, ?_, ?_, ?_, ?_, ?_, ?_, ?_⟩
  · intro a b
    cases a with
    | none => cases b <;> rfl
    | some va =>
      cases b with
      | none => rfl
      | some vb => exact cosineSimilarityL_comm va vb
  · intro b; cases b <;> rfl
  · intro a; cases a <;> rfl
  · intro b
    cases b with
    | none => rfl
    | some vb =>
      show cosineSimilarityL [] vb = 0
      unfold cosineSimilarityL
      rw [if_pos (Or.inl rfl)]
  · intro a b h
    show cosineSimilarityL a b = 0
    unfold cosineSimilarityL
    by_cases h1 : a = [] ∨ b = []
    · rw [if_pos h1]
    · rw [if_neg h1, if_pos (Or.inl h)]
  · intro a b h
    show cosineSimilarityL a b = 0
    unfold cosineSimilarityL
    by_cases h1 : a = [] ∨ b = []
    · rw [if_pos h1]
    · rw [if_neg h1, if_pos (Or.inr h)]
  · intro a b
    show cosineSimilarityL a b = cosineSimilarityL _ _
    unfold cosineSimilarityL dotMin normSqA normSqB
    rw [← zip_take_min a b]
    by_cases h1 : a = [] ∨ b = []
    · have h2 : a.take (min a.length b.length) = [] ∨
          b.take (min a.length b.length) = [] := by
        rcases h1 with h | h <;> simp [h]
      rw [if_pos h1, if_pos h2]
    · push_neg at h1
      have hmin : 0 < min a.length b.length := by
        rcases h1 with ⟨ha, hb⟩
        have := List.length_pos.mpr ha
        have := List.length_pos.mpr hb
        omega
      have h2 : ¬(a.take (min a.length b.length) = [] ∨
          b.take (min a.length b.length) = []) := by
        push_neg
        constructor <;>
          · rw [← List.length_pos, List.length_take]
            omega
      rw [if_neg (by tauto), if_neg h2]
  · intro v hv hnorm
    have hval : cosineSimilarity (some v) (some v) = 1 :=
      cosineSimilarityL_self v hv hnorm
    refine ⟨hval, ?_⟩
    rw [hval]
    norm_num

/-- C6 witness: the one-component vector `[1]` has self-similarity
exactly 1; the zero vector `[0]` scores 0 against anything, here `[1]`;
and a concrete symmetric pair. -/
theorem cosineSimilarity_props_witness :
    (cosineSimilarity (some [(1 : ℝ)]) (some [(1 : ℝ)]) = 1 ∧
      |cosineSimilarity (some [(1 : ℝ)]) (some [(1 : ℝ)]) - 1| ≤ 1e-9) ∧
    cosineSimilarity (some [(0 : ℝ)]) (some [(1 : ℝ)]) = 0 ∧
    cosineSimilarity (some [(1 : ℝ), 2]) (some [(3 : ℝ)]) =
      cosineSimilarity (some [(3 : ℝ)]) (some [(1 : ℝ), 2]) :=
  ⟨cosineSimilarity_props.2.2.2.2.2.2.2 [(1 : ℝ)] (by simp)
      (by norm_num [normSqA, dotMin]),
   cosineSimilarity_props.2.2.2.2.1 [(0 : ℝ)] [(1 : ℝ)]
      (by norm_num [normSqA, dotMin]),
   cosineSimilarity_props.1 (some [(1 : ℝ), 2]) (some [(3 : ℝ)])⟩


/-! ## Stage-2 scoring decomposition and claim C3 -/

theorem hasExactFlag_iff (q s : List Char) :
    hasExactFlag q s = true ↔ q ≠ [] ∧ 3 ≤ q.length ∧ q <:+: s := by
  unfold hasExactFlag includesL
  simp only [Bool.and_eq_true, decide_eq_true_eq]
  tauto

theorem hasTokenFlag_iff (q : List Char) (qTokens : List (List Char))
    (s t : List Char) :
    hasTokenFlag q qTokens s t = true ↔
      (q ≠ [] ∧ 3 ≤ q.length ∧ ¬(q <:+: s) ∧ qTokens ≠ [] ∧
        ∃ tk ∈ qTokens, tk <:+: s) ∨
      (¬(q ≠ [] ∧ q <:+: t) ∧ qTokens ≠ [] ∧
        ∃ tk ∈ qTokens, tk <:+: t) := by
  unfold hasTokenFlag includesL
  simp only [Bool.or_eq_true, Bool.and_eq_true, Bool.not_eq_true',
    decide_eq_true_eq, decide_eq_false_iff_not, List.any_eq_true,
    Bool.and_eq_false_iff]
  rw [not_and_or]
  constructor
  · rintro (⟨⟨⟨⟨h1, h2⟩, h3⟩, h4⟩, h5⟩ | ⟨⟨h1, h2⟩, h3⟩)
    · exact Or.inl ⟨h1, h2, h3, h4, h5⟩
    · exact Or.inr ⟨h1, h2, h3⟩
  · rintro (⟨h1, h2, h3, h4, h5⟩ | ⟨h1, h2, h3⟩)
    · exact Or.inl ⟨⟨⟨⟨h1, h2⟩, h3⟩, h4⟩, h5⟩
    · exact Or.inr ⟨⟨h1, h2⟩, h3⟩

/-- C3 (amended): the weighted score is the additive sum of five
components and the untouched maximum cosine similarity is retained as
`score`; `simComponent = 0.75 × max cosine`, `exactComponent = 0.12` iff
the (nonempty) query has length ≥ 3 and is a literal substring of the
lowercased chunk, `titleExactComponent = 0.03` iff the query is nonempty
and a literal substring of the lowercased title,
`recencyComponent = 0.05 × exp(-age/30 days)` — but
`tokenComponent = 0.05` only when a token matches in a field whose
corresponding exact check failed: in the chunk only when the full query is
NOT a substring of the chunk, and in the title only when the full query is
NOT a substring of the title. -/
theorem weightedScore_decomposition (q : List Char)
    (qTokens : List (List Char)) (titleLower itemText : List Char)
    (emb : Option (List ℝ)) (ves : List (Option (List ℝ))) (now ts : ℕ) :
    (processItem q qTokens titleLower itemText emb ves now ts).score =
      maxCosine ves emb ∧
    (processItem q qTokens titleLower itemText emb ves now ts).weightedScore
      = W_SIM * maxCosine ves emb +
        (if q ≠ [] ∧ 3 ≤ q.length ∧ q <:+: toLowerL itemText then W_EXACT
          else 0) +
        (if q ≠ [] ∧ q <:+: titleLower then W_TITLE_EXACT else 0) +
        (if (q ≠ [] ∧ 3 ≤ q.length ∧ ¬(q <:+: toLowerL itemText) ∧
              qTokens ≠ [] ∧ ∃ tk ∈ qTokens, tk <:+: toLowerL itemText) ∨
            (¬(q ≠ [] ∧ q <:+: titleLower) ∧ qTokens ≠ [] ∧
              ∃ tk ∈ qTokens, tk <:+: titleLower) then W_TOKEN else 0) +
        W_RECENCY * recencyWeight now ts := by
  constructor
  · rfl
  · unfold processItem
    simp only [hasExactFlag_iff, hasTokenFlag_iff, includesL,
      Bool.and_eq_true, decide_eq_true_eq]

/-- C3 counterexample: for the query "abc" scored against the chunk text
"abc" (empty title, chunk embedding `[1]`, one query-variation embedding
`[1]`, age 0), the code's `weightedScore` is
`0.75 + 0.12 + 0 + 0 + 0.05 = 0.92` — the token boost is NOT granted even
though the token "abc" is a literal substring of the chunk, because the
token check only runs when the exact-substring check failed — while the
claim's reading (token component 0.05 iff any token is a substring of
chunk or title) yields `0.97`. -/
theorem weightedScore_token_counterexample :
    (processItem ['a', 'b', 'c'] [['a', 'b', 'c']] [] ['a', 'b', 'c']
        (some [(1 : ℝ)]) [some [(1 : ℝ)]] 0 0).weightedScore ≠
      claimedWeightedScore ['a', 'b', 'c'] [['a', 'b', 'c']] []
        ['a', 'b', 'c'] (some [(1 : ℝ)]) [some [(1 : ℝ)]] 0 0 := by
  have hnorm : normSqA [(1 : ℝ)] [(1 : ℝ)] ≠ 0 := by
    norm_num [normSqA]
  have h1 : cosineSimilarityL [(1 : ℝ)] [(1 : ℝ)] = 1 :=
    cosineSimilarityL_self [(1 : ℝ)] (by simp) hnorm
  have hmax : maxCosine [some [(1 : ℝ)]] (some [(1 : ℝ)]) = 1 := by
    unfold maxCosine
    simp only [List.map_nil, List.foldl_nil]
    exact h1
  have hrec : recencyWeight 0 0 = 1 := by
    simp [recencyWeight]
  have hE : hasExactFlag ['a', 'b', 'c']
      (toLowerL ['a', 'b', 'c']) = true := by decide
  have hT : hasTokenFlag ['a', 'b', 'c'] [['a', 'b', 'c']]
      (toLowerL ['a', 'b', 'c']) [] = false := by decide
  have hTitle : (decide ((['a', 'b', 'c'] : List Char) ≠ []) &&
      includesL [] ['a', 'b', 'c']) = false := by decide
  have hlhs : (processItem ['a', 'b', 'c'] [['a', 'b', 'c']] []
      ['a', 'b', 'c'] (some [(1 : ℝ)]) [some [(1 : ℝ)]] 0 0).weightedScore
      = W_SIM * 1 + W_EXACT + 0 + 0 + W_RECENCY * 1 := by
    unfold processItem
    rw [hmax, hrec]
    simp only [hE, hT, hTitle, if_true, if_false, ite_true, ite_false,
      Bool.false_eq_true]
  have hcl1 : ((['a', 'b', 'c'] : List Char) ≠ [] ∧
      3 ≤ (['a', 'b', 'c'] : List Char).length ∧
      ['a', 'b', 'c'] <:+: toLowerL ['a', 'b', 'c']) := by decide
  have hrhs : claimedWeightedScore ['a', 'b', 'c'] [['a', 'b', 'c']] []
      ['a', 'b', 'c'] (some [(1 : ℝ)]) [some [(1 : ℝ)]] 0 0
      = W_SIM * 1 + W_EXACT + 0 + W_TOKEN + W_RECENCY * 1 := by
    unfold claimedWeightedScore
    rw [hmax, hrec]
    rw [if_pos (by decide :
      3 ≤ (['a', 'b', 'c'] : List Char).length ∧
      ['a', 'b', 'c'] <:+: toLowerL ['a', 'b', 'c'])]
    rw [if_neg (by decide : ¬((['a', 'b', 'c'] : List Char) <:+: []))]
    rw [if_pos (by decide :
      ∃ tk ∈ [['a', 'b', 'c']], tk <:+: toLowerL ['a', 'b', 'c'] ∨
        tk <:+: ([] : List Char))]
  rw [hlhs, hrhs]
  unfold W_SIM W_EXACT W_TOKEN W_RECENCY
  norm_num

/-! ## Claim C2: identical-content fast path -/

/-- C2: when the existing document's latest version carries the same
content hash as the incoming capture, processing only bumps the
timestamps: the result is the same document with the latest version's
timestamp and the top-level timestamp set to the capture timestamp (url
and title refreshed when truthy), the versions list otherwise unchanged —
and the embedding/summary computation (`compute`) is never forced, so the
result does not depend on it (no re-embedding). -/
theorem fast_path_frame (canUrl url title : String) (ts : ℕ) (h : ℤ)
    (f g : Unit → List Item × List Char) (mv : ℕ) (thr : ℝ) (d : Document)
    (latest : Version)
    (hidx : d.versions[d.latestVersionIndex]? = some latest)
    (hhash : latest.hash = h) :
    processAndStoreCore canUrl url title ts h f mv thr (some d) =
      some { d with
        versions := d.versions.set d.latestVersionIndex
          { latest with timestamp := ts }
        timestamp := ts
        title := jsOrS title d.title
        url := jsOrS url d.url } ∧
    processAndStoreCore canUrl url title ts h f mv thr (some d) =
      processAndStoreCore canUrl url title ts h g mv thr (some d) := by
  have hfl : fastLatest d = some (d.latestVersionIndex, latest) := by
    unfold fastLatest
    rw [hidx]
  constructor
  · simp only [processAndStoreCore]
    rw [hfl]
    simp [hhash]
  · simp only [processAndStoreCore]
    rw [hfl]
    simp [hhash]

/-- C2 witness: a concrete one-version document re-ingested with the same
hash 42 at a later timestamp 9 gets exactly the timestamp bump. -/
theorem fast_path_frame_witness :
    processAndStoreCore "c" "u" "t" 9 42 (fun _ => ([], []))
        3 (98 / 100)
        (some ⟨"c", "u", "t", 5, 0, [⟨5, 42, [], none, []⟩], [], none, []⟩) =
      some ⟨"c", "u", "t", 9, 0, [⟨9, 42, [], none, []⟩], [], none, []⟩ := by
  have hmain := (fast_path_frame "c" "u" "t" 9 42 (fun _ => ([], []))
    (fun _ => ([], [])) 3 (98 / 100)
    ⟨"c", "u", "t", 5, 0, [⟨5, 42, [], none, []⟩], [], none, []⟩
    ⟨5, 42, [], none, []⟩ rfl rfl).1
  rw [hmain]
  rfl

/-! ## Version-merge invariants and claim C1 -/

theorem one_le_effectiveMax (mv : ℕ) : 1 ≤ effectiveMax mv :=
  le_max_left 1 _

theorem drop_append_le {α : Type} (l1 l2 : List α) (k : ℕ)
    (h : k ≤ l1.length) : (l1 ++ l2).drop k = l1.drop k ++ l2 := by
  induction l1 generalizing k with
  | nil =>
    have : k = 0 := by simpa using h
    simp [this]
  | cons a t ih =>
    cases k with
    | zero => simp
    | succ k2 =>
      simp only [List.cons_append, List.drop_succ_cons]
      exact ih k2 (by simpa using h)

theorem appendEvict_drop_front (versions : List Version) (v : Version)
    (maxN : ℕ) :
    (appendEvict versions v maxN).1 =
      (versions ++ [v]).drop ((versions.length + 1) - maxN) ∧
    (appendEvict versions v maxN).2 =
      (appendEvict versions v maxN).1.length - 1 := by
  unfold appendEvict
  by_cases hlt : maxN < (versions ++ [v]).length
  · simp only [hlt, if_pos]
    refine ⟨?_, trivial⟩
    congr 1
    simp
  · simp only [hlt, if_neg, if_false, ite_false]
    have hlen : (versions ++ [v]).length = versions.length + 1 := by simp
    have hk : versions.length + 1 - maxN = 0 := by omega
    rw [hk]
    simp

theorem appendEvict_inv (versions : List Version) (v : Version) (maxN : ℕ)
    (hm : 1 ≤ maxN) :
    (appendEvict versions v maxN).2 < (appendEvict versions v maxN).1.length ∧
    (appendEvict versions v maxN).1.length ≤ maxN ∧
    (appendEvict versions v maxN).1[(appendEvict versions v maxN).2]?
      = some v := by
  obtain ⟨h1, h2⟩ := appendEvict_drop_front versions v maxN
  have hk : versions.length + 1 - maxN ≤ versions.length := by omega
  have hdrop : (versions ++ [v]).drop (versions.length + 1 - maxN) =
      versions.drop (versions.length + 1 - maxN) ++ [v] :=
    drop_append_le versions [v] _ hk
  have hlen : (appendEvict versions v maxN).1.length =
      (versions.length - (versions.length + 1 - maxN)) + 1 := by
    rw [h1, hdrop]
    simp
  have hpos : 1 ≤ (appendEvict versions v maxN).1.length := by omega
  refine ⟨by omega, ?_, ?_⟩
  · rw [hlen]
    omega
  · rw [h2, ← List.getLast?_eq_getElem?, h1, hdrop, List.getLast?_concat]

theorem syncTopLevel_inv (canUrl url title : String)
    (step : List Version × ℕ) (fallback : Version) (maxN : ℕ)
    (hstep : step.2 < step.1.length) (hlen : step.1.length ≤ maxN) :
    DocInv maxN (syncTopLevel canUrl url title step fallback) := by
  have hc : (step.1)[step.2]? = some (step.1)[step.2] :=
    List.getElem?_eq_getElem hstep
  unfold syncTopLevel DocInv
  simp only [hc, Option.getD_some]
  refine ⟨hstep, hlen, ?_⟩
  intro w hw
  rw [Option.some.injEq] at hw
  subst hw
  exact ⟨rfl, rfl, rfl⟩

/-- C1: the document invariant — `latestVersionIndex` in range (the lower
bound holds by type), version-list length at most the effective maximum
(default 3), and the denormalized top-level items/centroid/summary equal
to those of `versions[latestVersionIndex]` — is established by
new-document creation and preserved by every merge write of both writers
(`upsertVersion` covering hash fast path, similar-overwrite and
append-with-eviction, and `processAndStore` covering the same paths);
moreover the append path drops evicted versions from the front (oldest
first). -/
theorem merge_preserves_invariant :
    (∀ (canUrl url title : String) (v : Version) (mv : ℕ) (thr : ℝ),
      DocInv (effectiveMax mv)
        (upsertVersionDoc canUrl url title v mv thr none)) ∧
    (∀ (canUrl url title : String) (ts : ℕ) (h : ℤ)
        (f : Unit → List Item × List Char) (mv : ℕ) (thr : ℝ)
        (d2 : Document),
      processAndStoreCore canUrl url title ts h f mv thr none = some d2 →
      DocInv (effectiveMax mv) d2) ∧
    (∀ (canUrl url title : String) (v : Version) (mv : ℕ) (thr : ℝ)
        (d : Document),
      DocInv (effectiveMax mv) d →
      DocInv (effectiveMax mv)
        (upsertVersionDoc canUrl url title v mv thr (some d))) ∧
    (∀ (canUrl url title : String) (ts : ℕ) (h : ℤ)
        (f : Unit → List Item × List Char) (mv : ℕ) (thr : ℝ)
        (d d2 : Document),
      DocInv (effectiveMax mv) d →
      processAndStoreCore canUrl url title ts h f mv thr (some d) = some d2 →
      DocInv (effectiveMax mv) d2) ∧
    (∀ (versions : List Version) (v : Version) (maxN : ℕ),
      (appendEvict versions v maxN).1 =
        (versions ++ [v]).drop ((versions.length + 1) - maxN)) := by
  refine ⟨?_, ?_, ?_, ?_,
    fun versions v maxN => (appendEvict_drop_front versions v maxN).1⟩
  · intro canUrl url title v mv thr
    refine ⟨by simp [upsertVersionDoc], ?_, ?_⟩
    · simpa [upsertVersionDoc] using one_le_effectiveMax mv
    · intro w hw
      simp only [upsertVersionDoc] at hw ⊢
      simp at hw
      subst hw
      exact ⟨rfl, rfl, rfl⟩
  · intro canUrl url title ts h f mv thr d2 heq
    simp only [processAndStoreCore] at heq
    rw [Option.some.injEq] at heq
    subst heq
    refine ⟨by simp, by simpa using one_le_effectiveMax mv, ?_⟩
    intro w hw
    simp at hw
    subst hw
    exact ⟨rfl, rfl, rfl⟩
  · intro canUrl url title v mv thr d hinv
    obtain ⟨hlt, hle, hsync⟩ := hinv
    have hidx : d.versions[d.latestVersionIndex]? =
        some d.versions[d.latestVersionIndex] := List.getElem?_eq_getElem hlt
    simp only [upsertVersionDoc]
    rw [hidx]
    set latest := d.versions[d.latestVersionIndex] with hlatest
    by_cases h1 : latest.hash = v.hash
    · simp only [h1, if_pos, ite_true]
      refine syncTopLevel_inv _ _ _ _ _ _ ?_ ?_
      · simpa using hlt
      · simpa using hle
    · by_cases h2 : similarUpsert thr latest v
      · simp only [h1, h2, if_neg, if_pos, ite_false, ite_true]
        refine syncTopLevel_inv _ _ _ _ _ _ ?_ ?_
        · simpa using hlt
        · simpa using hle
      · simp only [h1, h2, if_neg, ite_false]
        obtain ⟨g1, g2, g3⟩ :=
          appendEvict_inv d.versions v (effectiveMax mv)
            (one_le_effectiveMax mv)
        exact syncTopLevel_inv _ _ _ _ _ _ g1 g2
  · intro canUrl url title ts h f mv thr d d2 hinv heq
    obtain ⟨hlt, hle, hsync⟩ := hinv
    have hidx : d.versions[d.latestVersionIndex]? =
        some d.versions[d.latestVersionIndex] := List.getElem?_eq_getElem hlt
    set latest := d.versions[d.latestVersionIndex] with hlatest
    have hfl : fastLatest d = some (d.latestVersionIndex, latest) := by
      unfold fastLatest
      rw [hidx]
    simp only [processAndStoreCore] at heq
    rw [hfl] at heq
    by_cases h1 : latest.hash = h
    · simp only [h1, if_pos, ite_true, Option.some.injEq] at heq
      subst heq
      obtain ⟨s1, s2, s3⟩ := hsync latest hidx
      refine ⟨by simpa using hlt, by simpa using hle, ?_⟩
      intro w hw
      simp only [List.getElem?_set_self hlt, Option.some.injEq] at hw
      subst hw
      exact ⟨s1, s2, s3⟩
    · simp only [h1, if_neg, ite_false] at heq
      rw [hidx] at heq
      by_cases h2 : similarPAS thr latest
          { timestamp := ts, hash := h, items := (f ()).1
            centroid := computeCentroid (f ()).1, summary := (f ()).2 }
      · simp only [h2, if_pos, ite_true, Option.some.injEq] at heq
        subst heq
        refine ⟨by simpa using hlt, by simpa using hle, ?_⟩
        intro w hw
        simp only [List.getElem?_set_self hlt, Option.some.injEq] at hw
        subst hw
        exact ⟨rfl, rfl, rfl⟩
      · simp only [h2, if_neg, ite_false, Option.some.injEq] at heq
        subst heq
        obtain ⟨g1, g2, g3⟩ :=
          appendEvict_inv d.versions
            { timestamp := ts, hash := h, items := (f ()).1
              centroid := computeCentroid (f ()).1, summary := (f ()).2 }
            (effectiveMax mv) (one_le_effectiveMax mv)
        refine ⟨g1, g2, ?_⟩
        intro w hw
        rw [g3] at hw
        cases hw
        exact ⟨rfl, rfl, rfl⟩

/-- C1 witness: creating a document (no prior record) and then merging a
second version into it preserves the invariant at concrete inputs. -/
theorem merge_preserves_invariant_witness :
    DocInv (effectiveMax 3)
      (upsertVersionDoc "c" "u" "t" ⟨1, 7, [], none, []⟩ 3 (98 / 100)
        none) ∧
    DocInv (effectiveMax 3)
      (upsertVersionDoc "c" "u" "t" ⟨2, 8, [], none, []⟩ 3 (98 / 100)
        (some ⟨"c", "u", "t", 1, 0, [⟨1, 7, [], none, []⟩], [], none, []⟩)) :=
  ⟨merge_preserves_invariant.1 "c" "u" "t" ⟨1, 7, [], none, []⟩ 3 (98 / 100),
   merge_preserves_invariant.2.2.1 "c" "u" "t" ⟨2, 8, [], none, []⟩ 3
    (98 / 100) ⟨"c", "u", "t", 1, 0, [⟨1, 7, [], none, []⟩], [], none, []⟩
    ⟨by simp, by simp [effectiveMax], by
      intro w hw
      simp at hw
      subst hw
      exact ⟨rfl, rfl, rfl⟩⟩⟩

/-! ## Claim C5: retry with backoff and abandonment -/

/-- C5: on a processing failure for a tracked URL the attempt counter is
incremented; while the incremented count is at most 3 the same message is
scheduled for re-enqueue with backoff `1000 × 2^(attempts-1)` (pending
payload kept); once it exceeds 3 the processing entry is removed, the
persisted pending payload is discarded, nothing further is scheduled, and
the failure is durably recorded in the persisted log. -/
theorem processFailure_retry_policy (st : FailState) (m : PageMessage)
    (e : ProcEntry)
    (hfind : st.processing.find? (fun p => p.url = m.url) = some e) :
    (e.attempts + 1 ≤ 3 →
      (onProcessFailure st m).scheduled =
        st.scheduled ++ [(1000 * 2 ^ (e.attempts + 1 - 1), m)] ∧
      (onProcessFailure st m).pending = st.pending ∧
      (∀ p ∈ (onProcessFailure st m).processing, p.url = m.url →
        p.attempts = e.attempts + 1 ∧ p.status = ProcStatus.error)) ∧
    (3 < e.attempts + 1 →
      (∀ p ∈ (onProcessFailure st m).processing, p.url ≠ m.url) ∧
      (∀ u ∈ (onProcessFailure st m).pending, u ≠ m.url) ∧
      (onProcessFailure st m).scheduled = st.scheduled ∧
      "giving up after retries" ∈ (onProcessFailure st m).logs) := by
  constructor
  · intro hle
    simp only [onProcessFailure]
    rw [hfind]
    simp only [hle, if_pos, ite_true]
    refine ⟨by trivial, by trivial, ?_⟩
    intro p hp hpu
    simp only [List.mem_map] at hp
    obtain ⟨q, hq, hqe⟩ := hp
    by_cases hqu : q.url = m.url
    · rw [if_pos hqu] at hqe
      subst hqe
      exact ⟨rfl, rfl⟩
    · rw [if_neg hqu] at hqe
      subst hqe
      exact absurd hpu hqu
  · intro hgt
    simp only [onProcessFailure]
    rw [hfind]
    have hle : ¬(e.attempts + 1 ≤ 3) := by omega
    simp only [hle, if_neg, if_false, ite_false]
    refine ⟨?_, ?_, by trivial, ?_⟩
    · intro p hp
      have := List.of_mem_filter hp
      simpa using this
    · intro u hu
      have := List.of_mem_filter hu
      simpa using this
    · simp

/-- C5 witness: a concrete entry at 2 prior attempts is rescheduled with
backoff `1000 × 2^2 = 4000`; a concrete entry at 3 prior attempts is
abandoned: processing entry gone, pending payload gone, failure logged. -/
theorem processFailure_retry_policy_witness :
    ((onProcessFailure ⟨[⟨"u", .retrying, 2⟩], ["u"], [], []⟩
        ⟨"u", 0⟩).scheduled = [] ++ [(1000 * 2 ^ (2 + 1 - 1), ⟨"u", 0⟩)] ∧
      (onProcessFailure ⟨[⟨"u", .retrying, 2⟩], ["u"], [], []⟩
        ⟨"u", 0⟩).pending = ["u"]) ∧
    ((∀ p ∈ (onProcessFailure ⟨[⟨"u", .error, 3⟩], ["u"], [], []⟩
        ⟨"u", 0⟩).processing, p.url ≠ "u") ∧
      (∀ u ∈ (onProcessFailure ⟨[⟨"u", .error, 3⟩], ["u"], [], []⟩
        ⟨"u", 0⟩).pending, u ≠ "u") ∧
      "giving up after retries" ∈
        (onProcessFailure ⟨[⟨"u", .error, 3⟩], ["u"], [], []⟩
          ⟨"u", 0⟩).logs) := by
  have h1 := processFailure_retry_policy ⟨[⟨"u", .retrying, 2⟩], ["u"], [], []⟩
    ⟨"u", 0⟩ ⟨"u", .retrying, 2⟩ (by decide)
  have h2 := processFailure_retry_policy ⟨[⟨"u", .error, 3⟩], ["u"], [], []⟩
    ⟨"u", 0⟩ ⟨"u", .error, 3⟩ (by decide)
  obtain ⟨hr, -⟩ := h1
  obtain ⟨-, hg⟩ := h2
  obtain ⟨ha, hb, -⟩ := hr (by decide)
  obtain ⟨hc, hd, -, he⟩ := hg (by decide)
  exact ⟨⟨ha, hb⟩, hc, hd, he⟩

/-! ## Import dimension filtering and claim C7 -/

/-- The dimension of the first embedded item across a prepared version
list, in processing order (the inference source of lines 2454-2465). -/
def firstEmbeddedDim : List Version → Option ℕ
  | [] => none
  | v :: rest =>
    if v.items.length ≠ 0 then
      match v.items.find? fun it =>
          match it.embedding with
          | some e => 0 < e.length
          | none => false with
      | some first => some ((first.embedding.getD []).length)
      | none => firstEmbeddedDim rest
    else firstEmbeddedDim rest

theorem importStep_all_mismatch_skips (dim : ℕ) (fm : Option String)
    (st : ImportState) (v : Version) (hne : v.items ≠ [])
    (hbad : ∀ it ∈ v.items, ∃ e, it.embedding = some e ∧ e.length ≠ dim) :
    importStep (some dim) fm st v = { st with skipped := st.skipped + 1 } := by
  have hfil : (v.items.filter fun it =>
      match it.embedding with
      | none => true
      | some e => decide (e.length = dim)) = [] := by
    rw [List.filter_eq_nil_iff]
    intro it hit
    obtain ⟨e, he, hlen⟩ := hbad it hit
    rw [he]
    simpa using hlen
  have hlen0 : v.items.length ≠ 0 := by
    simpa using hne
  simp only [importStep]
  rw [hfil]
  simp only [List.length_nil, hlen0, if_pos, ite_true, ne_eq,
    not_false_eq_true, and_true, true_and]

theorem importFold_all_skip (dim : ℕ) (fm : Option String) :
    ∀ (vs : List Version) (st : ImportState),
      (∀ v ∈ vs, v.items ≠ [] ∧
        ∀ it ∈ v.items, ∃ e, it.embedding = some e ∧ e.length ≠ dim) →
      vs.foldl (importStep (some dim) fm) st =
        { st with skipped := st.skipped + vs.length } := by
  intro vs
  induction vs with
  | nil =>
    intro st _
    simp
  | cons v rest ih =>
    intro st hall
    have hv := hall v (List.mem_cons_self v rest)
    have hrest : ∀ w ∈ rest, w.items ≠ [] ∧
        ∀ it ∈ w.items, ∃ e, it.embedding = some e ∧ e.length ≠ dim :=
      fun w hw => hall w (List.mem_cons_of_mem _ hw)
    rw [List.foldl_cons,
      importStep_all_mismatch_skips dim fm st v hv.1 hv.2, ih _ hrest]
    cases st
    simp only [List.length_cons]
    congr 1
    omega

theorem importFold_noDim_counts (fm : Option String) :
    ∀ (vs : List Version) (st : ImportState),
      (vs.foldl (importStep none fm) st).skipped = st.skipped ∧
      (vs.foldl (importStep none fm) st).done = st.done + vs.length ∧
      (vs.foldl (importStep none fm) st).written = st.written ++ vs := by
  intro vs
  induction vs with
  | nil =>
    intro st
    simp
  | cons v rest ih =>
    intro st
    rw [List.foldl_cons]
    have hstep : ∀ st2 : ImportState,
        (importStep none fm st2 v).skipped = st2.skipped ∧
        (importStep none fm st2 v).done = st2.done + 1 ∧
        (importStep none fm st2 v).written = st2.written ++ [v] := by
      intro st2
      simp only [importStep]
      split
      all_goals first
      | (split <;> simp)
      | simp
    obtain ⟨h1, h2, h3⟩ := ih (importStep none fm st v)
    obtain ⟨g1, g2, g3⟩ := hstep st
    refine ⟨by rw [h1, g1], ?_, by rw [h3, g3]; simp⟩
    rw [h2, g2]
    simp only [List.length_cons]
    omega

theorem importFold_meta_stable (fm : Option String) :
    ∀ (vs : List Version) (st : ImportState) (m : EmbMeta),
      st.meta = some m →
      (vs.foldl (importStep none fm) st).meta = some m := by
  intro vs
  induction vs with
  | nil =>
    intro st m hm
    simpa using hm
  | cons v rest ih =>
    intro st m hm
    rw [List.foldl_cons]
    refine ih _ m ?_
    simp only [importStep]
    split
    · split
      · simp only [ensureEmbeddingMetaOp, hm]
        split <;> rfl
      · simpa using hm
    · simpa using hm

theorem importFold_meta_infer (fm : Option String) :
    ∀ (vs : List Version) (st : ImportState),
      st.meta = none →
      (vs.foldl (importStep none fm) st).meta =
        match firstEmbeddedDim vs with
        | some d => some ⟨fm, d⟩
        | none => none := by
  intro vs
  induction vs with
  | nil =>
    intro st hm
    simpa [firstEmbeddedDim] using hm
  | cons v rest ih =>
    intro st hm
    rw [List.foldl_cons]
    simp only [importStep, firstEmbeddedDim]
    by_cases hne : v.items.length ≠ 0
    · simp only [hne, if_pos, ite_true, ne_eq]
      cases hfind : v.items.find? fun it =>
          match it.embedding with
          | some e => 0 < e.length
          | none => false with
      | none =>
        simp only [hfind]
        exact ih _ (by simpa using hm)
      | some first =>
        simp only [hfind]
        have hpred := List.find?_some hfind
        have hdim : ((first.embedding.getD []).length) ≠ 0 := by
          cases hemb : first.embedding with
          | none => rw [hemb] at hpred; simp at hpred
          | some e =>
            rw [hemb] at hpred
            simp only [Option.getD_some, hemb]
            simp at hpred
            omega
        have hset : (ensureEmbeddingMetaOp st.meta fm
            ((first.embedding.getD []).length)) =
            some ⟨fm, (first.embedding.getD []).length⟩ := by
          simp only [ensureEmbeddingMetaOp, hm, hdim, if_neg, ite_false]
        refine Eq.trans (importFold_meta_stable fm rest _ _ ?_) rfl
        simp [hset]
    · simp only [hne, if_neg, if_false, ite_false]
      exact ih _ (by simpa using hm)

/-- C7: (1) during import with persisted metadata of dimension `dim`,
every version whose (nonempty) items all carry embeddings of a different
dimension is skipped — not written — and counted, so importing 768-dim
items into a 384-dim store yields a nonzero skipped count; (2) with no
persisted metadata, nothing is skipped and the dimension is inferred from
the first embedded item and persisted once; (3) a bare legacy array (no
wrapper object) is accepted by the import reader. -/
theorem import_dimension_policy :
    (∀ (mm : Option String) (dim : ℕ) (im : Option EmbMeta)
        (fm : Option String) (vs : List Version),
      dim ≠ 0 →
      (∀ v ∈ vs, v.items ≠ [] ∧
        ∀ it ∈ v.items, ∃ e, it.embedding = some e ∧ e.length ≠ dim) →
      (importPages (some ⟨mm, dim⟩) im fm vs).skipped = vs.length ∧
      (importPages (some ⟨mm, dim⟩) im fm vs).written = []) ∧
    (∀ (fm : Option String) (vs : List Version),
      (importPages none none fm vs).skipped = 0 ∧
      (importPages none none fm vs).done = vs.length ∧
      (importPages none none fm vs).written = vs ∧
      (importPages none none fm vs).meta =
        match firstEmbeddedDim vs with
        | some d => some ⟨fm, d⟩
        | none => none) ∧
    (∀ (pages : List ℕ),
      parseImportFile (ImportJson.bareArray pages) = .ok (0, none, pages)) :=
  by
  refine ⟨?_, ?_, fun pages => rfl⟩
  · intro mm dim im fm vs hdim hall
    have hcd : currentDimOf (some ⟨mm, dim⟩) = some dim := by
      simp [currentDimOf, hdim]
    have : importPages (some ⟨mm, dim⟩) im fm vs =
        vs.foldl (importStep (some dim) fm)
          { meta := some ⟨mm, dim⟩, skipped := 0, done := 0, written := [] }
        := by
      simp only [importPages, hcd]
    rw [this, importFold_all_skip dim fm vs _ hall]
    exact ⟨by simp, rfl⟩
  · intro fm vs
    have hpages : importPages none none fm vs =
        vs.foldl (importStep none fm)
          { meta := none, skipped := 0, done := 0, written := [] } := by
      simp only [importPages, currentDimOf]
    obtain ⟨h1, h2, h3⟩ := importFold_noDim_counts fm vs
      { meta := none, skipped := 0, done := 0, written := [] }
    have h4 := importFold_meta_infer fm vs
      { meta := none, skipped := 0, done := 0, written := [] } rfl
    rw [hpages]
    refine ⟨h1, by rw [h2]; simp, by rw [h3]; simp, h4⟩

set_option maxRecDepth 8000

/-- C7 witness: importing a single version whose only item is a 768-dim
embedding into a store whose metadata says 384 skips it and reports a
nonzero count; importing it into a store with no metadata persists
dimension 768; a concrete bare array parses. -/
theorem import_dimension_policy_witness :
    ((importPages (some ⟨none, 384⟩) none none
        [⟨0, 0, [⟨[], some (List.replicate 768 (1 : ℝ))⟩], none, []⟩]).skipped
      = 1 ∧
     (importPages (some ⟨none, 384⟩) none none
        [⟨0, 0, [⟨[], some (List.replicate 768 (1 : ℝ))⟩], none, []⟩]).written
      = []) ∧
    (importPages none none none
        [⟨0, 0, [⟨[], some (List.replicate 768 (1 : ℝ))⟩], none, []⟩]).meta
      = some ⟨none, 768⟩ ∧
    parseImportFile (ImportJson.bareArray [5]) = .ok (0, none, [5]) := by
  have hbad : ∀ v ∈ [(⟨0, 0, [⟨[], some (List.replicate 768 (1 : ℝ))⟩],
      none, []⟩ : Version)], v.items ≠ [] ∧
      ∀ it ∈ v.items, ∃ e, it.embedding = some e ∧ e.length ≠ 384 := by
    intro v hv
    simp only [List.mem_singleton] at hv
    subst hv
    refine ⟨List.cons_ne_nil _ _, ?_⟩
    intro it hit
    simp only [List.mem_singleton] at hit
    subst hit
    refine ⟨List.replicate 768 (1 : ℝ), rfl, ?_⟩
    rw [List.length_replicate]
    omega
  obtain ⟨h1, h2⟩ := import_dimension_policy.1 none 384 none none
    [⟨0, 0, [⟨[], some (List.replicate 768 (1 : ℝ))⟩], none, []⟩]
    (by omega) hbad
  obtain ⟨-, -, -, h4⟩ := import_dimension_policy.2.1 none
    [⟨0, 0, [⟨[], some (List.replicate 768 (1 : ℝ))⟩], none, []⟩]
  refine ⟨⟨by rw [h1]; rfl, h2⟩, ?_, import_dimension_policy.2.2 [5]⟩
  rw [h4]
  have : firstEmbeddedDim
      [⟨0, 0, [⟨[], some (List.replicate 768 (1 : ℝ))⟩], none, []⟩] =
      some 768 := by
    simp [firstEmbeddedDim, List.find?]
  rw [this]

/-! ## Normalization idempotence, hash range and claim C10 -/

/-- Whitespace-flat lists: every whitespace character is the plain space,
and no two adjacent characters are both whitespace.  `collapseWs` always
produces such a list and is the identity on them. -/
def WsFlat (l : List Char) : Prop :=
  (∀ c ∈ l, isJsWs c = true → c = ' ') ∧
  List.Chain' (fun a b => ¬(isJsWs a = true ∧ isJsWs b = true)) l

theorem wsFlat_tail (c : Char) (cs : List Char) (h : WsFlat (c :: cs)) :
    WsFlat cs :=
  ⟨fun x hx hxw => h.1 x (List.mem_cons_of_mem _ hx) hxw, h.2.tail⟩

theorem collapseAux_true_head (cs : List Char) (d : Char)
    (hd : (collapseAux true cs).head? = some d) : isJsWs d = false := by
  induction cs with
  | nil => simp [collapseAux] at hd
  | cons a as ih =>
    by_cases hw : isJsWs a = true
    · simp only [collapseAux, hw, if_pos, ite_true] at hd
      exact ih hd
    · rw [Bool.not_eq_true] at hw
      simp only [collapseAux, hw, Bool.false_eq_true, if_false, ite_false,
        List.head?_cons, Option.some.injEq] at hd
      subst hd
      exact hw

theorem collapseAux_flat : ∀ (b : Bool) (l : List Char),
    WsFlat (collapseAux b l) := by
  intro b l
  induction l generalizing b with
  | nil =>
    simp only [collapseAux]
    exact ⟨by simp, List.chain'_nil⟩
  | cons c cs ih =>
    by_cases hw : isJsWs c = true
    · cases b with
      | true =>
        simp only [collapseAux, hw, if_pos, ite_true]
        exact ih true
      | false =>
        simp only [collapseAux, hw, if_pos, ite_true, Bool.false_eq_true,
          if_false, ite_false]
        have hrest := ih true
        refine ⟨?_, ?_⟩
        · intro x hx hxw
          rcases List.mem_cons.mp hx with rfl | hx2
          · rfl
          · exact (hrest : WsFlat (collapseAux true cs)).1 x hx2 hxw
        · rw [List.chain'_cons']
          refine ⟨?_, (hrest : WsFlat (collapseAux true cs)).2⟩
          intro y hy hcon
          have hyd : (collapseAux true cs).head? = some y := by
            cases hh : (collapseAux true cs).head? with
            | none => rw [hh] at hy; simp at hy
            | some d =>
              rw [hh] at hy
              simp only [Option.mem_def, Option.some.injEq] at hy
              rw [hy]
          exact absurd hcon.2 (by
            rw [collapseAux_true_head cs y hyd]
            simp)
    · rw [Bool.not_eq_true] at hw
      simp only [collapseAux, hw, Bool.false_eq_true, if_false, ite_false]
      have hrest := ih false
      refine ⟨?_, ?_⟩
      · intro x hx hxw
        rcases List.mem_cons.mp hx with rfl | hx2
        · rw [hxw] at hw
          cases hw
        · exact (hrest : WsFlat (collapseAux false cs)).1 x hx2 hxw
      · rw [List.chain'_cons']
        refine ⟨?_, (hrest : WsFlat (collapseAux false cs)).2⟩
        intro y hy hcon
        rw [hcon.1] at hw
        cases hw

theorem collapseWs_flat (l : List Char) : WsFlat (collapseWs l) :=
  collapseAux_flat false l

theorem collapseAux_flat_id : ∀ l : List Char, WsFlat l →
    collapseAux false l = l ∧
    ((∀ c, l.head? = some c → isJsWs c = false) → collapseAux true l = l)
    := by
  intro l
  induction l with
  | nil => exact fun _ => ⟨rfl, fun _ => rfl⟩
  | cons c cs ih =>
    intro h
    have htail := wsFlat_tail c cs h
    obtain ⟨ih1, ih2⟩ := ih htail
    by_cases hw : isJsWs c = true
    · have hsp : c = ' ' := h.1 c (List.mem_cons_self c cs) hw
      have hheads : ∀ d, cs.head? = some d → isJsWs d = false := by
        intro d hd
        have hpair := (List.chain'_cons'.mp h.2).1 d (by rw [hd]; rfl)
        by_contra hcon
        rw [Bool.not_eq_false] at hcon
        exact hpair ⟨hw, hcon⟩
      constructor
      · simp only [collapseAux, hw, if_pos, ite_true, Bool.false_eq_true,
          if_false, ite_false]
        rw [ih2 hheads, hsp]
      · intro hnone
        have := hnone c rfl
        rw [hw] at this
        cases this
    · rw [Bool.not_eq_true] at hw
      constructor
      · simp only [collapseAux, hw, Bool.false_eq_true, if_false, ite_false]
        rw [ih1]
      · intro _
        simp only [collapseAux, hw, Bool.false_eq_true, if_false, ite_false]
        rw [ih1]

theorem collapseWs_flat_id (l : List Char) (h : WsFlat l) :
    collapseWs l = l :=
  (collapseAux_flat_id l h).1

theorem wsFlat_within (l1 l2 : List Char) (h : WsFlat l2)
    (hInf : l1 <:+: l2) : WsFlat l1 := by
  obtain ⟨pre, suf, hps⟩ := hInf
  subst hps
  refine ⟨?_, ?_⟩
  · intro c hc hw
    exact h.1 c (by simp [hc]) hw
  · exact h.2.left_of_append.right_of_append

theorem prefix_head_eq {α : Type} (l1 l2 : List α) (c : α)
    (hp : l1 <+: l2) (hh : l1.head? = some c) : l2.head? = some c := by
  obtain ⟨t, rfl⟩ := hp
  cases l1 with
  | nil => simp at hh
  | cons a as =>
    simp only [List.head?_cons, Option.some.injEq] at hh
    subst hh
    rfl

theorem head?_dropWhile_false (p : Char → Bool) (l : List Char) (c : Char)
    (h : (l.dropWhile p).head? = some c) : p c = false := by
  have hgen := List.head?_dropWhile_not p l
  rw [h] at hgen
  exact hgen

theorem dropWhile_eq_self_of_head (p : Char → Bool) (l : List Char)
    (h : ∀ c, l.head? = some c → p c = false) : l.dropWhile p = l := by
  cases l with
  | nil => rfl
  | cons a as =>
    have ha := h a rfl
    simp [List.dropWhile_cons, ha]

theorem trimWs_isInfix (l : List Char) : trimWs l <:+: l := by
  unfold trimWs
  have h1 : List.rdropWhile isJsWs (l.dropWhile isJsWs) <+:
      l.dropWhile isJsWs := List.rdropWhile_prefix _ _
  have h2 : l.dropWhile isJsWs <:+ l := List.dropWhile_suffix _
  exact h1.isInfix.trans h2.isInfix

theorem dropWhile_trimWs (l : List Char) :
    (trimWs l).dropWhile isJsWs = trimWs l := by
  apply dropWhile_eq_self_of_head
  intro c hc
  have hpre : trimWs l <+: l.dropWhile isJsWs := List.rdropWhile_prefix _ _
  have hhead : (l.dropWhile isJsWs).head? = some c :=
    prefix_head_eq _ _ c hpre hc
  exact head?_dropWhile_false _ _ _ hhead

theorem trimWs_idem (l : List Char) : trimWs (trimWs l) = trimWs l := by
  show List.rdropWhile isJsWs ((trimWs l).dropWhile isJsWs) = trimWs l
  rw [dropWhile_trimWs]
  show List.rdropWhile isJsWs
    (List.rdropWhile isJsWs (l.dropWhile isJsWs)) = _
  rw [List.rdropWhile_idempotent]
  rfl

theorem normalizeText_idem (l : List Char) :
    normalizeText (normalizeText l) = normalizeText l := by
  show trimWs (collapseWs (trimWs (collapseWs l))) = trimWs (collapseWs l)
  have hflat : WsFlat (collapseWs l) := collapseWs_flat l
  have hflat2 : WsFlat (trimWs (collapseWs l)) :=
    wsFlat_within _ _ hflat (trimWs_isInfix _)
  rw [collapseWs_flat_id _ hflat2, trimWs_idem]

/-- C10: the content hash is invariant under whitespace normalization —
`stringHash s = stringHash (normalizeText s)` (so any two raw texts with
the same normalization, i.e. differing only in whitespace, hash alike and
take the identical-content fast path) — and `stringHash` always lands in
the unsigned 32-bit range `[0, 2^32)`. -/
theorem stringHash_normalization_invariant :
    ∀ l : List Char,
      stringHash l = stringHash (normalizeText l) ∧
      (∀ l2 : List Char, normalizeText l = normalizeText l2 →
        stringHash l = stringHash l2) ∧
      0 ≤ stringHash l ∧ stringHash l < 2 ^ 32 := by
  intro l
  have hdef : ∀ x : List Char,
      stringHash x = toUint32 (hashRaw (normalizeText x)) := fun x => rfl
  refine ⟨?_, ?_, ?_, ?_⟩
  · rw [hdef, hdef, normalizeText_idem]
  · intro l2 h
    rw [hdef, hdef, h]
  · exact Int.emod_nonneg _ (by norm_num)
  · exact Int.emod_lt_of_pos _ (by norm_num)

/-- C10 witness: "a␉␉b" (tab run) and "a b" normalize identically and
hash identically, concretely evaluated; the hash of a sample string is in
range. -/
theorem stringHash_normalization_invariant_witness :
    stringHash ['a', '\t', '\t', 'b'] =
      stringHash (normalizeText ['a', '\t', '\t', 'b']) ∧
    (normalizeText ['a', '\t', '\t', 'b'] = normalizeText ['a', ' ', 'b'] ∧
      stringHash ['a', '\t', '\t', 'b'] = stringHash ['a', ' ', 'b']) ∧
    0 ≤ stringHash ['a', '\t', '\t', 'b'] ∧
    stringHash ['a', '\t', '\t', 'b'] < 2 ^ 32 := by
  have hnorm : normalizeText ['a', '\t', '\t', 'b'] =
      normalizeText ['a', ' ', 'b'] := by decide
  obtain ⟨h1, h2, h3, h4⟩ :=
    stringHash_normalization_invariant ['a', '\t', '\t', 'b']
  exact ⟨h1, ⟨hnorm, h2 ['a', ' ', 'b'] hnorm⟩, h3, h4⟩

end WebRecall
